import Mathlib

/-!
# Bond binary encoding primitives (`bond/protocol/encoding.h`)

A shallow embedding of the variable-length integer codec, the zigzag transform,
the hex digit helpers and the string transcoder of `encoding.h`, with the
properties of these functions stated and proved over the embedding.

Conventions of the embedding:

* an unsigned value of the C++ type `T` is a `Nat`, the bit width `w` of `T`
  is an explicit parameter wherever the width of `T` influences the result,
  and wrap-around is written `% 2 ^ w`;
* a signed value is an `Int`; its two's complement bit pattern on `n` bits is
  `toBits n x`, and `toSigned n u` reads a bit pattern back;
* the template parameter `Buffer` is an in-memory byte stream: an output
  buffer is the list of the bytes written so far, an input buffer the list of
  the bytes not consumed yet, and the buffer's read primitive fails on a
  truncated input.
-/

set_option linter.unusedVariables false

namespace bond

/-! ## Buffers -/

/-- Failure reported by the read primitive of an input buffer. -/
inductive BufferError where
  | eof
  deriving DecidableEq

/-- Modelled from the spec: the output side of the buffer capability contract,
which `encoding.h` takes as the template parameter `Buffer` (its declaration is
not part of this header). The bytes written so far, oldest first. -/
abbrev OutputBuffer := List Nat

/-- Modelled from the spec: the input side of the buffer capability contract,
which `encoding.h` takes as the template parameter `Buffer`. The bytes that
remain to be read, next byte first. -/
abbrev InputBuffer := List Nat

/-- Modelled from the spec: `Buffer::Write(uint8_t)`, appends one byte. -/
def OutputBuffer.Write (output : OutputBuffer) (byte : Nat) : OutputBuffer :=
  output ++ [byte]

/-- Modelled from the spec: `Buffer::Read(uint8_t&)`, consumes one byte, or
fails when the input is exhausted. -/
def InputBuffer.Read : InputBuffer → Except BufferError (Nat × InputBuffer)
  | [] => .error .eof
  | byte :: rest => .ok (byte, rest)

/-- Modelled from the spec: `Buffer::Write(const void*, size)`, appends the
first `size` bytes of the memory block `data`. Reading past the end of the
block is undefined in C++; the model yields `none` there. -/
def OutputBuffer.WriteBytes (output : OutputBuffer) (data : List Nat) (size : Nat) :
    Option OutputBuffer :=
  if size ≤ data.length then some (output ++ data.take size) else none

/-- Modelled from the spec: `Buffer::Read(void*, size)`, consumes `size`
bytes, or fails when fewer remain. -/
def InputBuffer.ReadBytes (input : InputBuffer) (size : Nat) :
    Except BufferError (List Nat × InputBuffer) :=
  if size ≤ input.length then .ok (input.take size, input.drop size) else .error .eof

/-- The optional native varint method of an output buffer type:
`void Buffer::WriteVariableUnsigned(T)`, when the buffer type declares one. -/
abbrev NativeWrite := Option (OutputBuffer → Nat → OutputBuffer)

/-- The classifier `implements_varint_write<Buffer, T>`: true exactly when the
buffer type declares `WriteVariableUnsigned(T)`. -/
def implements_varint_write (native : NativeWrite) : Bool :=
  native.isSome

/-! ## Variable-length unsigned integers -/

mutual

/-- The free function `WriteVariableUnsigned(Buffer&, T)`: the two overloads
selected by `enable_if` / `disable_if` on `implements_varint_write`. -/
def WriteVariableUnsigned (native : NativeWrite) (output : OutputBuffer) (value : Nat) :
    OutputBuffer :=
  match native with
  | some method => method output value
  | none => GenericWriteVariableUnsigned native output value
termination_by 2 * value + 1
decreasing_by all_goals simp_wf

/-- The function `GenericWriteVariableUnsigned(Buffer&, T)`. `x` keeps the
original value, `value >>= 7` drops the low group; the byte written is
`static_cast<uint8_t>(x | 0x80)` when higher bits remain and
`static_cast<uint8_t>(x)` otherwise. -/
def GenericWriteVariableUnsigned (native : NativeWrite) (output : OutputBuffer) (value : Nat) :
    OutputBuffer :=
  let x := value
  let value := value >>> 7
  if value ≠ 0 then
    WriteVariableUnsigned native (output.Write ((x ||| 0x80) % 256)) value
  else
    output.Write (x % 256)
termination_by 2 * value
decreasing_by
  all_goals simp_wf
  rename_i h
  simp only [ne_eq, Nat.shiftRight_eq_div_pow] at h ⊢
  omega

end

/-- Integer promotion: an operand whose type is narrower than `int` is
computed in `int` (32 bits), a wider one in its own type. -/
def promoted (w : Nat) : Nat :=
  max w 32

/-- The shift `x << count` in a type of `p` bits. For a count below `p` this is
the exact product `x * 2 ^ count` reduced to `p` bits. For a count at or beyond
`p` C++ leaves the result undefined; the model takes what the shift instruction
of the x86-64 build computes, which uses the count modulo `p`. -/
def shl (p : Nat) (x count : Nat) : Nat :=
  (x <<< (count % p)) % 2 ^ p

/-- The `do ... while (byte >= 0x80)` loop of `GenericReadVariableUnsigned`:
`value` and `shift` are the loop variables (`T value`, `uint32_t shift`), `w`
is the bit width of `T`. A failure of `input.Read(byte)` leaves the function
at once with that failure. `part << shift` is computed in the promoted type of
`T` (see `shl` for a count at or beyond its width), and the sum is reduced to
the `w` bits of `T`. -/
def GenericReadVariableUnsigned.loop (w : Nat) (input : InputBuffer) (value shift : Nat) :
    Except BufferError (Nat × InputBuffer) :=
  match h : input.Read with
  | .error e => .error e
  | .ok (byte, input) =>
    let part := byte &&& 0x7f
    let value := (value + shl (promoted w) part shift) % 2 ^ w
    let shift := (shift + 7) % 2 ^ 32
    if byte ≥ 0x80 then GenericReadVariableUnsigned.loop w input value shift
    else .ok (value, input)
termination_by input.length
decreasing_by
  simp_wf
  rename_i input0 _ _ _
  cases input0 with
  | nil => simp [InputBuffer.Read] at h
  | cons b r =>
    simp only [InputBuffer.Read, Except.ok.injEq, Prod.mk.injEq] at h
    rw [← h.2]
    simp

/-- The function `GenericReadVariableUnsigned(Buffer&, T&)`. The argument
`value` is the prior content of the referenced variable; the function assigns
`value = 0` and `shift = 0` before the loop. The result is the final content
of `value` and the buffer after the bytes consumed. -/
def GenericReadVariableUnsigned (w : Nat) (input : InputBuffer) (value : Nat) :
    Except BufferError (Nat × InputBuffer) :=
  let value := 0
  let shift := 0
  GenericReadVariableUnsigned.loop w input value shift

/-- The optional native varint method of an input buffer type:
`void Buffer::ReadVariableUnsigned(T&)`, when the buffer type declares one. It
receives the buffer and the prior content of the referenced variable. -/
abbrev NativeRead := Option (InputBuffer → Nat → Except BufferError (Nat × InputBuffer))

/-- The classifier `implements_varint_read<Buffer, T>`: true exactly when the
buffer type declares `ReadVariableUnsigned(T&)`. -/
def implements_varint_read (native : NativeRead) : Bool :=
  native.isSome

/-- The free function `ReadVariableUnsigned(Buffer&, T&)`: the two overloads
selected by `enable_if` / `disable_if` on `implements_varint_read`. -/
def ReadVariableUnsigned (native : NativeRead) (w : Nat) (input : InputBuffer) (value : Nat) :
    Except BufferError (Nat × InputBuffer) :=
  match native with
  | some method => method input value
  | none => GenericReadVariableUnsigned w input value


/-! ## Zigzag transform -/

/-- The two's complement bit pattern of the signed value `x` on `n` bits. -/
def toBits (n : Nat) (x : Int) : Nat :=
  (x % 2 ^ n).toNat

/-- The signed value of the low `n` bits of `u`, read as two's complement. -/
def toSigned (n : Nat) (u : Nat) : Int :=
  if u % 2 ^ n < 2 ^ (n - 1) then (u % 2 ^ n : Nat) else ((u % 2 ^ n : Nat) : Int) - 2 ^ n

/-- The function `EncodeZigZag(T value)` for a signed `T` of `w` bits:
`(value << 1) ^ (value >> (sizeof(T) * 8 - 1))`, computed in the promoted type
and converted to `make_unsigned<T>::type`. `value << 1` is the bit pattern of
`value * 2` in the promoted type (the bit shifted out is dropped), the right
shift is arithmetic, and the conversion keeps the low `w` bits. -/
def EncodeZigZag (w : Nat) (value : Int) : Nat :=
  let p := promoted w
  let shl := toBits p (value * 2)
  let sar := toBits p (value >>> (w - 1))
  (shl ^^^ sar) % 2 ^ w

/-- The function `DecodeZigZag(T value)` for an unsigned `T` of `w` bits:
`(value >> 1) ^ (-(value & 1))`, computed in the promoted type and converted
to `make_signed<T>::type`. `-(value & 1)` is zero or all ones in the promoted
type, and the conversion reads the low `w` bits as two's complement. -/
def DecodeZigZag (w : Nat) (value : Nat) : Int :=
  let p := promoted w
  let shr := value >>> 1
  let neg := toBits p (-((value &&& 1 : Nat) : Int))
  toSigned w ((shr ^^^ neg) % 2 ^ w)

/-- The signed values of a `w`-bit type. -/
def signedRange (w : Nat) (x : Int) : Prop :=
  -(2 ^ (w - 1) : Int) ≤ x ∧ x < 2 ^ (w - 1)

/-! ## Hex digits -/

/-- The code of a character literal, as the `int` value of a `char`. -/
def chr (c : Char) : Int :=
  c.toNat

namespace detail

/-- The overload `char HexDigit(int n)`: `d = n & 0xf`, then `'0' + d` below
ten and `'a' + d - 10` from ten on. The result is the code of the character
returned. -/
def HexDigit_int (n : Int) : Int :=
  let d := Int.land n 0xf
  if d < 10 then chr '0' + d else chr 'a' + d - 10

/-- The overload `int HexDigit(char c)`, on the code of `c`. -/
def HexDigit_char (c : Int) : Int :=
  if c ≥ chr 'a' ∧ c ≤ chr 'f' then
    c - chr 'a' + 10
  else if c ≥ chr 'A' ∧ c ≤ chr 'F' then
    c - chr 'A' + 10
  else
    c - chr '0'

end detail

/-! ## String transcoder -/

/-- The two kinds of string type the transcoder accepts: `is_string<T>` (narrow,
`char` elements) and `is_wstring<T>` (wide, `wchar_t` elements). -/
inductive StringKind where
  | string
  | wstring
  deriving DecidableEq

/-- The size in bytes of `string_char_int_type<T>::type`: `uint8_t` for a
narrow string and `uint16_t` for a wide string. -/
def string_char_int_type : StringKind → Nat
  | .string => 1
  | .wstring => 2

/-- The object representation of an unsigned integer of `size` bytes, low byte
first (little-endian host). -/
def unitBytes (size : Nat) (u : Nat) : List Nat :=
  (List.range size).map (fun k => (u >>> (8 * k)) % 256)

/-- The unsigned integer whose object representation is `bytes`, low byte
first. -/
def unitOfBytes (bytes : List Nat) : Nat :=
  bytes.foldr (fun b acc => b + 256 * acc) 0

/-- The call `string_data(value)`: the storage of a string whose characters
take `esz` bytes each, as a block of bytes. -/
def string_data (esz : Nat) (value : List Nat) : List Nat :=
  value.flatMap (unitBytes esz)

/-- The string of `length` characters of `esz` bytes each whose storage holds
`bytes`. -/
def string_of_data (esz : Nat) (length : Nat) (bytes : List Nat) : List Nat :=
  (List.range length).map (fun i => unitOfBytes ((bytes.drop (i * esz)).take esz))

/-- The call `resize_string(value, length)`: keeps the first `length`
characters and pads with zero characters up to `length`. -/
def resize_string (value : List Nat) (length : Nat) : List Nat :=
  value.take length ++ List.replicate (length - value.length) 0

/-- Modelled from the spec: `Buffer::Write(ch)` for a code unit `ch` of `usz`
bytes, appends its object representation. -/
def OutputBuffer.WriteUnit (usz : Nat) (output : OutputBuffer) (ch : Nat) : OutputBuffer :=
  output ++ unitBytes usz ch

/-- Modelled from the spec: `Buffer::Read(ch)` for a code unit `ch` of `usz`
bytes, consumes its object representation, or fails when fewer bytes remain. -/
def InputBuffer.ReadUnit (usz : Nat) (input : InputBuffer) :
    Except BufferError (Nat × InputBuffer) :=
  match input.ReadBytes usz with
  | .error e => .error e
  | .ok (bytes, input) => .ok (unitOfBytes bytes, input)

namespace detail

/-- The loop of the element-wise `WriteStringData`: `ch` is `data[i]` cast to
the code unit of `usz` bytes. Indexing past the storage is undefined in C++;
the model yields `none` there. The counter `int i` is a natural number in the
model. -/
def WriteStringData.loop (usz : Nat) (data : List Nat) (length : Nat) (i : Nat)
    (output : OutputBuffer) : Option OutputBuffer :=
  if h : i < length then
    match data[i]? with
    | none => none
    | some c =>
      let ch := c % 2 ^ (8 * usz)
      WriteStringData.loop usz data length (i + 1) (output.WriteUnit usz ch)
  else some output
termination_by length - i

/-- The two overloads of `WriteStringData(Buffer&, const T&, uint32_t)`. `esz`
is `sizeof(element_type<T>::type)` and `usz` is
`sizeof(string_char_int_type<T>::type)`; `enable_if_c` keeps the bulk copy when
they are equal and the element-wise loop when the character is wider. No
overload exists for a character narrower than the unit (`none`). -/
def WriteStringData (esz usz : Nat) (output : OutputBuffer) (value : List Nat) (length : Nat) :
    Option OutputBuffer :=
  if esz = usz then
    output.WriteBytes (string_data esz value) (length * esz)
  else if esz > usz then
    let data := value
    WriteStringData.loop usz data length 0 output
  else none

/-- The loop of the element-wise `ReadStringData`: each unit read is widened
to the character type and stored at `data[i]`. The counter `int i` is a
natural number in the model. -/
def ReadStringData.loop (esz usz : Nat) (length : Nat) (i : Nat) (input : InputBuffer)
    (data : List Nat) : Except BufferError (List Nat × InputBuffer) :=
  if h : i < length then
    match input.ReadUnit usz with
    | .error e => .error e
    | .ok (ch, input) =>
      ReadStringData.loop esz usz length (i + 1) input (data.set i (ch % 2 ^ (8 * esz)))
  else .ok (data, input)
termination_by length - i

/-- The two overloads of `ReadStringData(Buffer&, T&, uint32_t)`, selected as
for `WriteStringData`; `value` is the prior content of the string. The result
is the new content of the string and the buffer after the bytes consumed;
`none` stands for the absence of an overload. -/
def ReadStringData (esz usz : Nat) (input : InputBuffer) (value : List Nat) (length : Nat) :
    Option (Except BufferError (List Nat × InputBuffer)) :=
  if esz = usz then
    let value := resize_string value length
    match input.ReadBytes (length * esz) with
    | .error e => some (.error e)
    | .ok (bytes, input) => some (.ok (string_of_data esz value.length bytes, input))
  else if esz > usz then
    let value := resize_string value length
    some (ReadStringData.loop esz usz length 0 input value)
  else none

end detail

/-! ## Specification functions -/

/-- The byte sequence of a value, least significant group first: the list the
lemmas below show `GenericWriteVariableUnsigned` to append. -/
def varintBytes (v : Nat) : List Nat :=
  if h : v < 128 then [v] else (v % 128 + 128) :: varintBytes (v / 128)
termination_by v
decreasing_by omega

/-- A well-formed varint stream: every byte but the last has its high bit set
and the last byte has it clear. -/
def wellFormedStream (bs : List Nat) : Prop :=
  (∀ b ∈ bs.dropLast, 0x80 ≤ b ∧ b < 0x100) ∧ ∃ b, bs.getLast? = some b ∧ b < 0x80

/-- The sum over `i` of `(b_i & 0x7f) * 2 ^ (7 * i)` for the first `n` bytes of
a stream. -/
def groupSumUpTo (bs : List Nat) (n : Nat) : Nat :=
  ((List.range n).map (fun i => (bs.getD i 0 &&& 0x7f) * 2 ^ (7 * i))).sum

/-- The sum over `i` of `(b_i & 0x7f) * 2 ^ (7 * i)` for a whole stream. -/
def groupSum (bs : List Nat) : Nat :=
  groupSumUpTo bs bs.length

/-- The bitwise OR over `i` of `(b_i & 0x7f) << (7 * i)` for the first `n`
bytes of a stream. -/
def groupOrUpTo (bs : List Nat) (n : Nat) : Nat :=
  (List.range n).foldl (fun acc i => acc ||| ((bs.getD i 0 &&& 0x7f) <<< (7 * i))) 0

/-- The bitwise OR over `i` of `(b_i & 0x7f) << (7 * i)` for a whole stream. -/
def groupOr (bs : List Nat) : Nat :=
  groupOrUpTo bs bs.length

/-! ## Lemmas on the varint writer -/

theorem or_mod_two_pow (a b n : Nat) : (a ||| b) % 2 ^ n = a % 2 ^ n ||| b % 2 ^ n := by
  apply Nat.eq_of_testBit_eq
  intro i
  simp only [Nat.testBit_mod_two_pow, Nat.testBit_or]
  cases decide (i < n) <;> simp

set_option maxRecDepth 100000 in
theorem or_0x80_of_lt : ∀ y, y < 256 → y ||| 128 = y % 128 + 128 := by decide

theorem or_0x80_mod_256 (x : Nat) : (x ||| 0x80) % 256 = x % 128 + 128 := by
  have e : (256 : Nat) = 2 ^ 8 := by norm_num
  rw [e, or_mod_two_pow, ← e]
  have h2 : x % 256 % 128 = x % 128 := Nat.mod_mod_of_dvd x (by norm_num)
  rw [Nat.mod_eq_of_lt (by norm_num : 128 < 256),
    or_0x80_of_lt (x % 256) (Nat.mod_lt _ (by norm_num)), h2]

theorem and_0x7f (x : Nat) : x &&& 0x7f = x % 128 := by
  have e : (0x7f : Nat) = 2 ^ 7 - 1 := by norm_num
  rw [e, Nat.and_pow_two_sub_one_eq_mod]

theorem write_unfold (output : OutputBuffer) (v : Nat) :
    GenericWriteVariableUnsigned none output v =
      if v < 128 then output ++ [v]
      else GenericWriteVariableUnsigned none (output ++ [v % 128 + 128]) (v / 128) := by
  rw [GenericWriteVariableUnsigned]
  have e : (2 : Nat) ^ 7 = 128 := by norm_num
  simp only [Nat.shiftRight_eq_div_pow, OutputBuffer.Write, or_0x80_mod_256, e]
  by_cases h : v < 128
  · have h0 : v / 128 = 0 := by omega
    have h1 : v % 256 = v := Nat.mod_eq_of_lt (by omega)
    simp [h, h0, h1]
  · have h0 : v / 128 ≠ 0 := by omega
    rw [WriteVariableUnsigned]
    simp [h, h0]

theorem write_eq_append (v : Nat) : ∀ output : OutputBuffer,
    GenericWriteVariableUnsigned none output v = output ++ varintBytes v := by
  induction v using Nat.strong_induction_on with
  | _ v ih =>
    intro output
    rw [write_unfold, varintBytes]
    by_cases h : v < 128
    · simp [h]
    · simp only [h, if_false, dif_neg, not_false_eq_true]
      rw [ih (v / 128) (by omega)]
      simp

theorem varintBytes_length_le (k : Nat) : ∀ v, v < 2 ^ (7 * (k + 1)) →
    (varintBytes v).length ≤ k + 1 := by
  induction k with
  | zero =>
    intro v hv
    rw [varintBytes]
    have : v < 128 := by simpa using hv
    simp [this]
  | succ k ih =>
    intro v hv
    rw [varintBytes]
    by_cases h : v < 128
    · simp [h]
    · simp only [h, dif_neg, not_false_eq_true, List.length_cons]
      have h2 : v / 128 < 2 ^ (7 * (k + 1)) := by
        apply Nat.div_lt_of_lt_mul
        have e : 128 * 2 ^ (7 * (k + 1)) = 2 ^ (7 * (k + 1 + 1)) := by
          rw [show 7 * (k + 1 + 1) = 7 + 7 * (k + 1) by ring, pow_add]; norm_num
        omega
      have := ih (v / 128) h2
      omega

theorem varintBytes_ne_nil (v : Nat) : varintBytes v ≠ [] := by
  rw [varintBytes]
  split <;> simp

theorem varintBytes_get (v : Nat) : ∀ i b, (varintBytes v)[i]? = some b →
    b % 128 = v / 2 ^ (7 * i) % 128 ∧ b < 256 ∧
      (i + 1 < (varintBytes v).length → 128 ≤ b) ∧
      (i + 1 = (varintBytes v).length → b < 128) := by
  induction v using Nat.strong_induction_on with
  | _ v ih =>
    intro i b hb
    rw [varintBytes] at hb ⊢
    by_cases h : v < 128
    · simp only [h, dif_pos] at hb ⊢
      cases i with
      | zero =>
        simp only [List.getElem?_cons_zero, Option.some.injEq] at hb
        subst hb
        simp; omega
      | succ i => simp at hb
    · simp only [h, dif_neg, not_false_eq_true] at hb ⊢
      cases i with
      | zero =>
        simp only [List.getElem?_cons_zero, Option.some.injEq] at hb
        subst hb
        have := varintBytes_ne_nil (v / 128)
        have hl : 0 < (varintBytes (v / 128)).length := List.length_pos.mpr this
        simp only [List.length_cons]
        refine ⟨by simp, by omega, by omega, by omega⟩
      | succ i =>
        simp only [List.getElem?_cons_succ] at hb
        obtain ⟨h1, h2, h3, h4⟩ := ih (v / 128) (by omega) i b hb
        have e : v / 2 ^ (7 * (i + 1)) = v / 128 / 2 ^ (7 * i) := by
          rw [Nat.div_div_eq_div_mul, show 7 * (i + 1) = 7 + 7 * i by ring, pow_add]
          norm_num
        simp only [List.length_cons]
        refine ⟨by rw [h1, e], h2, fun hh => h3 (by omega), fun hh => h4 (by omega)⟩

set_option maxRecDepth 100000 in
theorem and_0x80_of_lt : ∀ b, b < 256 → b &&& 128 = if 128 ≤ b then 128 else 0 := by decide

/-! ## Lemmas on the varint reader -/

theorem read_loop_nil (w value shift : Nat) :
    GenericReadVariableUnsigned.loop w [] value shift = .error .eof := by
  rw [GenericReadVariableUnsigned.loop]
  simp [InputBuffer.Read]

theorem read_loop_cons (w byte : Nat) (rest : InputBuffer) (value shift : Nat) :
    GenericReadVariableUnsigned.loop w (byte :: rest) value shift =
      if byte ≥ 0x80 then
        GenericReadVariableUnsigned.loop w rest
          ((value + shl (promoted w) (byte % 128) shift) % 2 ^ w) ((shift + 7) % 2 ^ 32)
      else .ok ((value + shl (promoted w) (byte % 128) shift) % 2 ^ w, rest) := by
  rw [GenericReadVariableUnsigned.loop]
  simp only [InputBuffer.Read, and_0x7f]

theorem shl_of_lt (w value x shift : Nat) (hs : shift < promoted w) :
    (value + shl (promoted w) x shift) % 2 ^ w = (value + x * 2 ^ shift) % 2 ^ w := by
  have hd : 2 ^ w ∣ 2 ^ promoted w := Nat.pow_dvd_pow 2 (le_max_left w 32)
  simp only [shl, Nat.mod_eq_of_lt hs, Nat.shiftLeft_eq]
  rw [Nat.add_mod, Nat.mod_mod_of_dvd _ hd, ← Nat.add_mod]

theorem shl_zero_left (p count : Nat) : shl p 0 count = 0 := by
  simp [shl]

theorem read_loop_cons_lt (w byte : Nat) (rest : InputBuffer) (value shift : Nat)
    (hs : shift < promoted w) :
    GenericReadVariableUnsigned.loop w (byte :: rest) value shift =
      if byte ≥ 0x80 then
        GenericReadVariableUnsigned.loop w rest
          ((value + byte % 128 * 2 ^ shift) % 2 ^ w) ((shift + 7) % 2 ^ 32)
      else .ok ((value + byte % 128 * 2 ^ shift) % 2 ^ w, rest) := by
  rw [read_loop_cons, shl_of_lt w value _ shift hs]

theorem read_loop_varintBytes (w : Nat) (rest : InputBuffer) (v : Nat) :
    ∀ value shift, shift + 7 * (varintBytes v).length < 2 ^ 32 →
      shift + 7 * ((varintBytes v).length - 1) < promoted w →
      GenericReadVariableUnsigned.loop w (varintBytes v ++ rest) value shift =
        .ok ((value + v * 2 ^ shift) % 2 ^ w, rest) := by
  induction v using Nat.strong_induction_on with
  | _ v ih =>
    intro value shift hs hp
    rw [varintBytes] at hs hp ⊢
    by_cases h : v < 128
    · simp only [h, dif_pos, List.singleton_append]
      simp only [h, dif_pos, List.length_singleton, Nat.sub_self, Nat.mul_zero,
        Nat.add_zero] at hp
      rw [read_loop_cons_lt w v rest value shift hp]
      have h1 : ¬ v ≥ 0x80 := by omega
      rw [if_neg h1, Nat.mod_eq_of_lt h]
    · simp only [h, dif_neg, not_false_eq_true, List.cons_append, List.length_cons,
        Nat.add_sub_cancel] at hs hp ⊢
      have hpos : 0 < (varintBytes (v / 128)).length :=
        List.length_pos.mpr (varintBytes_ne_nil (v / 128))
      rw [read_loop_cons_lt w _ _ value shift (by omega)]
      have h1 : v % 128 + 128 ≥ 0x80 := by omega
      have h2 : (v % 128 + 128) % 128 = v % 128 := by omega
      have h3 : (shift + 7) % 2 ^ 32 = shift + 7 := Nat.mod_eq_of_lt (by omega)
      rw [if_pos h1, h2, h3, ih (v / 128) (by omega) _ _ (by omega) (by omega)]
      congr 2
      rw [Nat.add_mod, Nat.mod_mod, ← Nat.add_mod]
      congr 1
      have h4 : v / 128 * 2 ^ (shift + 7) = 128 * (v / 128) * 2 ^ shift := by
        rw [pow_add]; ring
      have h5 : v = v % 128 + 128 * (v / 128) := (Nat.mod_add_div v 128).symm
      rw [h4]
      conv_rhs => rw [h5]
      ring

/-! ## Lemmas on the zigzag transform -/

theorem xor_all_ones (n a : Nat) (h : a < 2 ^ n) : a ^^^ (2 ^ n - 1) = 2 ^ n - (a + 1) := by
  apply Nat.eq_of_testBit_eq
  intro i
  rw [Nat.testBit_xor, Nat.testBit_two_pow_sub_one, Nat.testBit_two_pow_sub_succ h]
  by_cases hi : i < n
  · simp [hi]
  · have h2 : a < 2 ^ i := lt_of_lt_of_le h (Nat.pow_le_pow_right (by norm_num) (by omega))
    simp [hi, Nat.testBit_lt_two_pow h2]

theorem two_pow_pred (w : Nat) (hw : 0 < w) : (2 : Nat) ^ w = 2 * 2 ^ (w - 1) := by
  obtain ⟨k, rfl⟩ : ∃ k, w = k + 1 := ⟨w - 1, by omega⟩
  simp [pow_succ, mul_comm]

theorem two_pow_promoted (w : Nat) : ∃ m, 0 < m ∧ (2 : Nat) ^ promoted w = 2 ^ w * m := by
  refine ⟨2 ^ (promoted w - w), by positivity, ?_⟩
  rw [← pow_add]
  congr 1
  simp only [promoted]
  omega

theorem toBits_nonneg (n : Nat) (x : Int) (h0 : 0 ≤ x) (h1 : x < 2 ^ n) :
    toBits n x = x.toNat := by
  simp only [toBits]
  rw [Int.emod_eq_of_lt h0 h1]

theorem toBits_neg (n : Nat) (x : Int) (h0 : -(2 ^ n : Int) ≤ x) (h1 : x < 0) :
    toBits n x = (x + 2 ^ n).toNat := by
  simp only [toBits]
  have h : x % 2 ^ n = (x + 2 ^ n) % 2 ^ n := by simp
  rw [h, Int.emod_eq_of_lt (by omega) (by omega)]

theorem toBits_neg_one (n : Nat) : toBits n (-1) = 2 ^ n - 1 := by
  have hp : (1 : Int) ≤ 2 ^ n := by exact_mod_cast Nat.one_le_two_pow
  rw [toBits_neg n (-1) (by omega) (by omega)]
  have h : (-1 + 2 ^ n : Int) = ((2 ^ n - 1 : Nat) : Int) := by
    rw [Nat.cast_sub Nat.one_le_two_pow]; push_cast; ring
  rw [h, Int.toNat_natCast]

theorem encode_nonneg (w : Nat) (hw : 0 < w) (n : Nat) (h : n < 2 ^ (w - 1)) :
    EncodeZigZag w (n : Int) = 2 * n := by
  obtain ⟨m, hm, hP⟩ := two_pow_promoted w
  have hW := two_pow_pred w hw
  have hlt : 2 * n < 2 ^ w := by omega
  have hle : 2 ^ w ≤ 2 ^ promoted w := by rw [hP]; exact Nat.le_mul_of_pos_right _ hm
  have h1 : toBits (promoted w) ((n : Int) * 2) = 2 * n := by
    have e : ((n : Int) * 2) = ((2 * n : Nat) : Int) := by push_cast; ring
    rw [e, toBits_nonneg _ _ (Int.natCast_nonneg _) (by exact_mod_cast lt_of_lt_of_le hlt hle),
      Int.toNat_natCast]
  have h2 : ((n : Int) >>> (w - 1)) = 0 := by
    rw [Int.shiftRight_eq_div_pow]
    exact Int.ediv_eq_zero_of_lt (Int.natCast_nonneg _) (by exact_mod_cast h)
  simp only [EncodeZigZag, h1, h2]
  simp [toBits, Nat.mod_eq_of_lt hlt]

theorem encode_neg (w : Nat) (hw : 0 < w) (k : Nat) (hk : 0 < k) (h : k ≤ 2 ^ (w - 1)) :
    EncodeZigZag w (-(k : Int)) = 2 * k - 1 := by
  obtain ⟨m, hm, hP⟩ := two_pow_promoted w
  have hW := two_pow_pred w hw
  have hle : 2 ^ w ≤ 2 ^ promoted w := by rw [hP]; exact Nat.le_mul_of_pos_right _ hm
  have h1 : toBits (promoted w) (-(k : Int) * 2) = 2 ^ promoted w - 2 * k := by
    have hc : ((2 : Int) ^ promoted w) = ((2 ^ promoted w : Nat) : Int) := by push_cast; rfl
    rw [toBits_neg _ _ (by rw [hc]; omega) (by omega)]
    have e : (-(k : Int) * 2 + 2 ^ promoted w) = ((2 ^ promoted w - 2 * k : Nat) : Int) := by
      rw [Nat.cast_sub (by omega)]; push_cast; ring
    rw [e, Int.toNat_natCast]
  have h2 : ((-(k : Int)) >>> (w - 1)) = -1 := by
    obtain ⟨j, rfl⟩ : ∃ j, k = j + 1 := ⟨k - 1, by omega⟩
    have e : (-((j + 1 : Nat) : Int)) = Int.negSucc j := rfl
    rw [e]
    show Int.negSucc (j >>> (w - 1)) = -1
    rw [Nat.shiftRight_eq_div_pow, Nat.div_eq_of_lt (by omega)]
    rfl
  simp only [EncodeZigZag, h1, h2, toBits_neg_one]
  rw [xor_all_ones _ _ (by omega)]
  have e : 2 ^ promoted w - (2 ^ promoted w - 2 * k + 1) = 2 * k - 1 := by omega
  rw [e, Nat.mod_eq_of_lt (by omega)]

theorem decode_even (w : Nat) (hw : 0 < w) (n : Nat) (h : n < 2 ^ (w - 1)) :
    DecodeZigZag w (2 * n) = n := by
  have hW := two_pow_pred w hw
  have h1 : (2 * n) >>> 1 = n := by
    rw [Nat.shiftRight_eq_div_pow]; omega
  have h2 : (2 * n) &&& 1 = 0 := by
    rw [Nat.and_one_is_mod]; omega
  have h3 : n % 2 ^ w = n := Nat.mod_eq_of_lt (by omega)
  simp only [DecodeZigZag, h1, h2]
  simp [toBits, toSigned, h3, h]

theorem decode_odd (w : Nat) (hw : 0 < w) (n : Nat) (h : n < 2 ^ (w - 1)) :
    DecodeZigZag w (2 * n + 1) = -(n : Int) - 1 := by
  obtain ⟨m, hm, hP⟩ := two_pow_promoted w
  have hW := two_pow_pred w hw
  have hle : 2 ^ w ≤ 2 ^ promoted w := by rw [hP]; exact Nat.le_mul_of_pos_right _ hm
  have h1 : (2 * n + 1) >>> 1 = n := by
    rw [Nat.shiftRight_eq_div_pow]; omega
  have h2 : (2 * n + 1) &&& 1 = 1 := by
    rw [Nat.and_one_is_mod]; omega
  have h3 : (2 ^ promoted w - (n + 1)) % 2 ^ w = 2 ^ w - (n + 1) := by
    obtain ⟨j, rfl⟩ : ∃ j, m = j + 1 := ⟨m - 1, by omega⟩
    have e : 2 ^ promoted w - (n + 1) = (2 ^ w - (n + 1)) + 2 ^ w * j := by
      rw [hP, Nat.mul_succ]; omega
    rw [e, Nat.add_mul_mod_self_left, Nat.mod_eq_of_lt (by omega)]
  have h4 : (2 ^ w - (n + 1)) % 2 ^ w = 2 ^ w - (n + 1) := Nat.mod_eq_of_lt (by omega)
  have h5 : ¬ (2 ^ w - (n + 1) < 2 ^ (w - 1)) := by omega
  simp only [DecodeZigZag, h1, h2, Nat.cast_one, toBits_neg_one]
  rw [xor_all_ones _ _ (by omega), h3]
  simp only [toSigned, h4, h5, if_false]
  rw [Nat.cast_sub (by omega)]
  push_cast
  ring

theorem signedRange_cases (w : Nat) (x : Int) (hx : signedRange w x) :
    (∃ n : Nat, x = n ∧ n < 2 ^ (w - 1)) ∨
      (∃ k : Nat, x = -(k : Int) ∧ 0 < k ∧ k ≤ 2 ^ (w - 1)) := by
  obtain ⟨h1, h2⟩ := hx
  have hc : ((2 : Int) ^ (w - 1)) = ((2 ^ (w - 1) : Nat) : Int) := by push_cast; rfl
  rw [hc] at h1 h2
  by_cases h : 0 ≤ x
  · left
    exact ⟨x.toNat, by omega, by omega⟩
  · right
    exact ⟨(-x).toNat, by omega, by omega, by omega⟩

theorem decode_encode (w : Nat) (hw : 0 < w) (x : Int) (hx : signedRange w x) :
    EncodeZigZag w x < 2 ^ w ∧ DecodeZigZag w (EncodeZigZag w x) = x := by
  have hW := two_pow_pred w hw
  rcases signedRange_cases w x hx with ⟨n, rfl, hn⟩ | ⟨k, rfl, hk, hk2⟩
  · rw [encode_nonneg w hw n hn, decode_even w hw n hn]
    exact ⟨by omega, rfl⟩
  · rw [encode_neg w hw k hk hk2]
    have e : 2 * k - 1 = 2 * (k - 1) + 1 := by omega
    refine ⟨by omega, ?_⟩
    rw [e, decode_odd w hw (k - 1) (by omega)]
    omega

theorem encode_decode (w : Nat) (hw : 0 < w) (u : Nat) (hu : u < 2 ^ w) :
    signedRange w (DecodeZigZag w u) ∧ EncodeZigZag w (DecodeZigZag w u) = u := by
  have hW := two_pow_pred w hw
  have hc : ((2 : Int) ^ (w - 1)) = ((2 ^ (w - 1) : Nat) : Int) := by push_cast; rfl
  rcases Nat.mod_two_eq_zero_or_one u with h | h
  · have e : u = 2 * (u / 2) := by omega
    rw [e, decode_even w hw (u / 2) (by omega), encode_nonneg w hw (u / 2) (by omega)]
    refine ⟨⟨?_, ?_⟩, rfl⟩ <;> rw [hc] <;> omega
  · have e : u = 2 * (u / 2) + 1 := by omega
    have e2 : (-((u / 2 : Nat) : Int) - 1) = -(((u / 2 + 1 : Nat)) : Int) := by push_cast; ring
    rw [e, decode_odd w hw (u / 2) (by omega), e2,
      encode_neg w hw (u / 2 + 1) (by omega) (by omega)]
    refine ⟨⟨?_, ?_⟩, by omega⟩ <;> rw [hc] <;> omega

theorem encode_value (w : Nat) (hw : 0 < w) (x : Int) (hx : signedRange w x) :
    (0 ≤ x → (EncodeZigZag w x : Int) = 2 * x) ∧
      (x < 0 → (EncodeZigZag w x : Int) = -2 * x - 1) := by
  rcases signedRange_cases w x hx with ⟨n, rfl, hn⟩ | ⟨k, rfl, hk, hk2⟩
  · rw [encode_nonneg w hw n hn]
    exact ⟨fun _ => by push_cast; ring, fun h => by omega⟩
  · rw [encode_neg w hw k hk hk2]
    exact ⟨fun h => by omega, fun _ => by omega⟩

/-! ## Lemmas on the string transcoder -/

theorem string_data_narrow (s : List Nat) (hs : ∀ c ∈ s, c < 256) : string_data 1 s = s := by
  induction s with
  | nil => rfl
  | cons c s ih =>
    have hc : c % 256 = c := Nat.mod_eq_of_lt (hs c (List.mem_cons_self c s))
    have ih2 := ih (fun d hd => hs d (List.mem_cons_of_mem c hd))
    simp only [string_data] at ih2
    have hr : List.range 1 = [0] := rfl
    simp [string_data, unitBytes, hc, ih2, hr]

theorem string_of_data_narrow (s : List Nat) : string_of_data 1 s.length s = s := by
  apply List.ext_getElem
  · simp [string_of_data]
  · intro i h1 h2
    simp only [string_of_data, List.getElem_map, List.getElem_range, Nat.mul_one]
    rw [List.drop_eq_getElem_cons h2]
    simp only [List.take_succ_cons, List.take_zero, unitOfBytes, List.foldr_cons, List.foldr_nil]
    omega

theorem resize_string_length (value : List Nat) (length : Nat) :
    (resize_string value length).length = length := by
  simp only [resize_string, List.length_append, List.length_take, List.length_replicate]
  omega

theorem width_pos (w : Nat) (hw : w ∈ [8, 16, 32, 64]) : 1 < w ∧ w ≤ 64 := by
  simp only [List.mem_cons, List.mem_singleton, List.not_mem_nil, or_false] at hw
  omega

theorem lt_two_pow_64 (w : Nat) (hw : w ∈ [8, 16, 32, 64]) (v : Nat) (hv : v < 2 ^ w) :
    v < 2 ^ 64 :=
  lt_of_lt_of_le hv (Nat.pow_le_pow_right (by norm_num) (width_pos w hw).2)

theorem varintBytes_budget (w : Nat) (hw : w ∈ [8, 16, 32, 64]) (v : Nat) (hv : v < 2 ^ w) :
    (varintBytes v).length ≤ 10 ∧ 7 * ((varintBytes v).length - 1) < promoted w := by
  simp only [List.mem_cons, List.mem_singleton, List.not_mem_nil, or_false] at hw
  rcases hw with rfl | rfl | rfl | rfl
  · have := varintBytes_length_le 1 v (lt_of_lt_of_le hv (by norm_num))
    simp only [promoted]; omega
  · have := varintBytes_length_le 2 v (lt_of_lt_of_le hv (by norm_num))
    simp only [promoted]; omega
  · have := varintBytes_length_le 4 v (lt_of_lt_of_le hv (by norm_num))
    simp only [promoted]; omega
  · have := varintBytes_length_le 9 v (lt_of_lt_of_le hv (by norm_num))
    simp only [promoted]; omega

theorem budget_shift_lt (w : Nat) (hw : w ∈ [8, 16, 32, 64]) (n : Nat) (hn : n ≤ (w + 6) / 7) :
    n ≤ 10 ∧ 7 * (n - 1) < promoted w := by
  simp only [List.mem_cons, List.mem_singleton, List.not_mem_nil, or_false] at hw
  rcases hw with rfl | rfl | rfl | rfl <;> simp only [promoted] <;> omega

/-! ## Properties of the variable-length integer codec

The properties of the generic writer are stated for a buffer type that declares
no native `WriteVariableUnsigned` (`native = none`), the case in which the
call `WriteVariableUnsigned(output, value)` inside the generic writer resolves
to the generic writer again. -/

/-- C1: for every unsigned value `v` of width `w` in {8, 16, 32, 64}, the
generic reader applied to a buffer holding exactly the bytes the generic writer
emitted for `v` returns `v` (and has consumed all of them), whatever the
output buffer held before and whatever the result variable held before. -/
theorem varint_read_write_roundtrip (w : Nat) (hw : w ∈ [8, 16, 32, 64]) (v : Nat)
    (hv : v < 2 ^ w) (output : OutputBuffer) (value : Nat) :
    ∃ bytes, GenericWriteVariableUnsigned none output v = output ++ bytes ∧
      GenericReadVariableUnsigned w bytes value = .ok (v, []) := by
  refine ⟨varintBytes v, write_eq_append v output, ?_⟩
  obtain ⟨hlen, hbud⟩ := varintBytes_budget w hw v hv
  have h := read_loop_varintBytes w [] v 0 0 (by omega) (by omega)
  simp only [List.append_nil, Nat.zero_add, pow_zero, Nat.mul_one, Nat.mod_eq_of_lt hv] at h
  simpa [GenericReadVariableUnsigned] using h

/-- Witness of C1: the 16-bit value 300. -/
theorem varint_read_write_roundtrip_witness :
    ∃ bytes, GenericWriteVariableUnsigned none [] 300 = [] ++ bytes ∧
      GenericReadVariableUnsigned 16 bytes 7 = .ok (300, []) :=
  varint_read_write_roundtrip 16 (by decide) 300 (by norm_num) [] 7

/-- C3: for every unsigned value `v` the generic writer appends a non-empty
byte sequence whose `i`-th byte carries `(v >> 7*i) & 0x7f` in its low 7 bits
(least significant group first); every byte but the last has its high bit set
and the last byte has its high bit clear. -/
theorem varint_write_layout (v : Nat) (output : OutputBuffer) :
    ∃ bytes, GenericWriteVariableUnsigned none output v = output ++ bytes ∧
      bytes ≠ [] ∧
      ∀ i b, bytes[i]? = some b →
        b < 256 ∧ b &&& 0x7f = (v >>> (7 * i)) &&& 0x7f ∧
        (i + 1 < bytes.length → b &&& 0x80 = 0x80) ∧
        (i + 1 = bytes.length → b &&& 0x80 = 0) := by
  refine ⟨varintBytes v, write_eq_append v output, varintBytes_ne_nil v, ?_⟩
  intro i b hb
  obtain ⟨h1, h2, h3, h4⟩ := varintBytes_get v i b hb
  have hand := and_0x80_of_lt b h2
  refine ⟨h2, ?_, ?_, ?_⟩
  · rw [and_0x7f, and_0x7f, Nat.shiftRight_eq_div_pow, h1]
  · intro hi
    have := h3 hi
    rw [hand, if_pos this]
  · intro hi
    have := h4 hi
    rw [hand, if_neg (by omega)]

/-- C4: for every unsigned value `v` of width `w` in {8, 16, 32, 64} the
generic writer returns, and the bytes it appends number at most `ceil(w/7)`:
2, 3, 5 and 10 bytes respectively. -/
theorem varint_write_length_le (w : Nat) (hw : w ∈ [8, 16, 32, 64]) (v : Nat)
    (hv : v < 2 ^ w) (output : OutputBuffer) :
    ∃ bytes, GenericWriteVariableUnsigned none output v = output ++ bytes ∧
      bytes.length ≤ (w + 6) / 7 ∧
      (w = 8 → bytes.length ≤ 2) ∧ (w = 16 → bytes.length ≤ 3) ∧
      (w = 32 → bytes.length ≤ 5) ∧ (w = 64 → bytes.length ≤ 10) := by
  refine ⟨varintBytes v, write_eq_append v output, ?_⟩
  have hb : (varintBytes v).length ≤ (w + 6) / 7 := by
    simp only [List.mem_cons, List.mem_singleton, List.not_mem_nil, or_false] at hw
    rcases hw with rfl | rfl | rfl | rfl
    · exact varintBytes_length_le 1 v (lt_of_lt_of_le hv (by norm_num))
    · exact varintBytes_length_le 2 v (lt_of_lt_of_le hv (by norm_num))
    · exact varintBytes_length_le 4 v (lt_of_lt_of_le hv (by norm_num))
    · exact varintBytes_length_le 9 v (lt_of_lt_of_le hv (by norm_num))
  refine ⟨hb, ?_, ?_, ?_, ?_⟩ <;> intro e <;> subst e <;> simpa using hb

/-- Witness of C4: the largest 64-bit value. -/
theorem varint_write_length_le_witness :
    ∃ bytes, GenericWriteVariableUnsigned none [] (2 ^ 64 - 1) = [] ++ bytes ∧
      bytes.length ≤ (64 + 6) / 7 ∧
      (64 = 8 → bytes.length ≤ 2) ∧ (64 = 16 → bytes.length ≤ 3) ∧
      (64 = 32 → bytes.length ≤ 5) ∧ (64 = 64 → bytes.length ≤ 10) :=
  varint_write_length_le 64 (by decide) (2 ^ 64 - 1) (by norm_num) []

/-- C5: the generic encoding of the value 0, of any width, is exactly one
byte, and that byte is 0x00. -/
theorem varint_write_zero (output : OutputBuffer) :
    GenericWriteVariableUnsigned none output 0 = output ++ [0x00] := by
  rw [write_unfold]
  simp

/-- C6: the generic encoding of 127 is the single byte 0x7F, and the generic
encoding of 128 is the two bytes 0x80 0x01, in that order. -/
theorem varint_write_127_128 (output : OutputBuffer) :
    GenericWriteVariableUnsigned none output 127 = output ++ [0x7F] ∧
      GenericWriteVariableUnsigned none output 128 = output ++ [0x80, 0x01] := by
  constructor
  · rw [write_unfold]
    simp
  · rw [write_unfold, if_neg (by norm_num), write_unfold]
    simp

/-! ## Properties of the zigzag transform -/

/-- C2: for every signed value `x` of each width in {8, 16, 32, 64}, the most
negative value of the width included, `DecodeZigZag(EncodeZigZag(x)) == x`. -/
theorem zigzag_decode_encode (w : Nat) (hw : w ∈ [8, 16, 32, 64]) :
    (∀ x : Int, signedRange w x → DecodeZigZag w (EncodeZigZag w x) = x) ∧
      DecodeZigZag w (EncodeZigZag w (-(2 ^ (w - 1)))) = -(2 ^ (w - 1)) := by
  have hpos : 0 < w := by have := width_pos w hw; omega
  have hall : ∀ x : Int, signedRange w x → DecodeZigZag w (EncodeZigZag w x) = x :=
    fun x hx => (decode_encode w hpos x hx).2
  refine ⟨hall, hall _ ⟨le_refl _, ?_⟩⟩
  have : (0 : Int) < 2 ^ (w - 1) := by positivity
  omega

/-- Witness of C2: the 8-bit width, whose most negative value is -128. -/
theorem zigzag_decode_encode_witness :
    (∀ x : Int, signedRange 8 x → DecodeZigZag 8 (EncodeZigZag 8 x) = x) ∧
      DecodeZigZag 8 (EncodeZigZag 8 (-(2 ^ (8 - 1)))) = -(2 ^ (8 - 1)) :=
  zigzag_decode_encode 8 (by decide)

/-- C7: for every signed width, `EncodeZigZag(0) == 0`,
`EncodeZigZag(-1) == 1` and `EncodeZigZag(1) == 2`. -/
theorem zigzag_encode_small (w : Nat) (hw : w ∈ [8, 16, 32, 64]) :
    EncodeZigZag w 0 = 0 ∧ EncodeZigZag w (-1) = 1 ∧ EncodeZigZag w 1 = 2 := by
  have hw2 := width_pos w hw
  have hpos : 0 < w := by omega
  have h2 : 2 ≤ 2 ^ (w - 1) := by
    calc 2 = 2 ^ 1 := by norm_num
      _ ≤ 2 ^ (w - 1) := Nat.pow_le_pow_right (by norm_num) (by omega)
  have e0 := encode_nonneg w hpos 0 (by omega)
  have e1 := encode_nonneg w hpos 1 (by omega)
  have em := encode_neg w hpos 1 (by omega) (by omega)
  exact ⟨by simpa using e0, by simpa using em, by simpa using e1⟩

/-- Witness of C7: the 32-bit width. -/
theorem zigzag_encode_small_witness :
    EncodeZigZag 32 0 = 0 ∧ EncodeZigZag 32 (-1) = 1 ∧ EncodeZigZag 32 1 = 2 :=
  zigzag_encode_small 32 (by decide)

/-- C8: the zigzag transform is a bijection between the signed and the
unsigned values of each width in {8, 16, 32, 64}: every unsigned `u` decodes
to a signed value of the width with `EncodeZigZag(DecodeZigZag(u)) == u`, and
every signed `x` encodes to an unsigned value of the width with
`DecodeZigZag(EncodeZigZag(x)) == x`. -/
theorem zigzag_bijection (w : Nat) (hw : w ∈ [8, 16, 32, 64]) :
    (∀ u : Nat, u < 2 ^ w →
        signedRange w (DecodeZigZag w u) ∧ EncodeZigZag w (DecodeZigZag w u) = u) ∧
      (∀ x : Int, signedRange w x →
        EncodeZigZag w x < 2 ^ w ∧ DecodeZigZag w (EncodeZigZag w x) = x) := by
  have hpos : 0 < w := by have := width_pos w hw; omega
  exact ⟨fun u hu => encode_decode w hpos u hu, fun x hx => decode_encode w hpos x hx⟩

/-- Witness of C8: the 16-bit width. -/
theorem zigzag_bijection_witness :
    (∀ u : Nat, u < 2 ^ 16 →
        signedRange 16 (DecodeZigZag 16 u) ∧ EncodeZigZag 16 (DecodeZigZag 16 u) = u) ∧
      (∀ x : Int, signedRange 16 x →
        EncodeZigZag 16 x < 2 ^ 16 ∧ DecodeZigZag 16 (EncodeZigZag 16 x) = x) :=
  zigzag_bijection 16 (by decide)

/-- C9: for every signed value `x` of a width in {8, 16, 32, 64},
`EncodeZigZag(x)` is even and equals `2*x` when `x >= 0`, and is odd and equals
`2*|x| - 1` when `x < 0`, as exact integers (the most negative value
included); so among values of one sign a smaller magnitude gives a smaller
unsigned result. -/
theorem zigzag_encode_magnitude (w : Nat) (hw : w ∈ [8, 16, 32, 64]) (x : Int)
    (hx : signedRange w x) :
    (0 ≤ x → (EncodeZigZag w x : Int) = 2 * x ∧ Even (EncodeZigZag w x)) ∧
      (x < 0 → (EncodeZigZag w x : Int) = 2 * |x| - 1 ∧ Odd (EncodeZigZag w x)) ∧
      (∀ y : Int, signedRange w y → (0 ≤ x ↔ 0 ≤ y) → |x| < |y| →
        EncodeZigZag w x < EncodeZigZag w y) := by
  have hpos : 0 < w := by have := width_pos w hw; omega
  obtain ⟨hx0, hx1⟩ := encode_value w hpos x hx
  refine ⟨fun h => ⟨hx0 h, ?_⟩, fun h => ⟨?_, ?_⟩, ?_⟩
  · have := hx0 h
    rw [Nat.even_iff]; omega
  · rw [abs_of_neg h, hx1 h]; ring
  · have := hx1 h
    rw [Nat.odd_iff]; omega
  · intro y hy hsign hlt
    obtain ⟨hy0, hy1⟩ := encode_value w hpos y hy
    by_cases h : 0 ≤ x
    · have h2 := hsign.mp h
      rw [abs_of_nonneg h, abs_of_nonneg h2] at hlt
      have := hx0 h
      have := hy0 h2
      omega
    · have h2 : ¬ 0 ≤ y := fun hh => h (hsign.mpr hh)
      rw [abs_of_neg (by omega), abs_of_neg (by omega)] at hlt
      have := hx1 (by omega)
      have := hy1 (by omega)
      omega

/-- Witness of C9: the most negative 8-bit value. -/
theorem zigzag_encode_magnitude_witness :
    (0 ≤ (-128 : Int) → (EncodeZigZag 8 (-128) : Int) = 2 * (-128) ∧
        Even (EncodeZigZag 8 (-128))) ∧
      ((-128 : Int) < 0 → (EncodeZigZag 8 (-128) : Int) = 2 * |(-128 : Int)| - 1 ∧
        Odd (EncodeZigZag 8 (-128))) ∧
      (∀ y : Int, signedRange 8 y → (0 ≤ (-128 : Int) ↔ 0 ≤ y) → |(-128 : Int)| < |y| →
        EncodeZigZag 8 (-128) < EncodeZigZag 8 y) :=
  zigzag_encode_magnitude 8 (by decide) (-128) (by simp [signedRange])

/-! ## Properties of the string transcoder -/

/-- C10: for every narrow string `s` (8-bit characters, so the character and
the code unit have the same size 1), `WriteStringData` with `length = |s|`
appends exactly `length * 1` bytes, equal to the code units of `s` unchanged,
and `ReadStringData` with the same length from those bytes yields `s`. -/
theorem string_equal_width_roundtrip (s : List Nat) (hs : ∀ c ∈ s, c < 256)
    (output : OutputBuffer) (value : List Nat) (rest : InputBuffer) :
    ∃ bytes, detail.WriteStringData 1 1 output s s.length = some (output ++ bytes) ∧
      bytes.length = s.length * 1 ∧ bytes = s ∧
      detail.ReadStringData 1 1 (bytes ++ rest) value s.length = some (.ok (s, rest)) := by
  refine ⟨s, ?_, by simp, rfl, ?_⟩
  · simp [detail.WriteStringData, OutputBuffer.WriteBytes, string_data_narrow s hs]
  · simp [detail.ReadStringData, InputBuffer.ReadBytes, resize_string_length,
      string_of_data_narrow]

/-- Witness of C10: the narrow string "ab". -/
theorem string_equal_width_roundtrip_witness :
    ∃ bytes, detail.WriteStringData 1 1 [] [0x61, 0x62] 2 = some ([] ++ bytes) ∧
      bytes.length = 2 * 1 ∧ bytes = [0x61, 0x62] ∧
      detail.ReadStringData 1 1 (bytes ++ []) [] 2 = some (.ok ([0x61, 0x62], [])) :=
  string_equal_width_roundtrip [0x61, 0x62] (by decide) [] [] []

/-! ## Further lemmas on the varint codec -/

theorem read_loop_error_iff (w : Nat) (input : InputBuffer) : ∀ value shift,
    ((∀ b ∈ input, 0x80 ≤ b) →
        GenericReadVariableUnsigned.loop w input value shift = .error .eof) ∧
      ((∃ b ∈ input, b < 0x80) →
        ∃ v rest, GenericReadVariableUnsigned.loop w input value shift = .ok (v, rest)) := by
  induction input with
  | nil =>
    intro value shift
    exact ⟨fun _ => read_loop_nil w value shift, fun ⟨b, hb, _⟩ => by simp at hb⟩
  | cons b bs ih =>
    intro value shift
    rw [read_loop_cons]
    by_cases h : b ≥ 0x80
    · rw [if_pos h]
      refine ⟨fun hall => (ih _ _).1 (fun c hc => hall c (List.mem_cons_of_mem b hc)), ?_⟩
      rintro ⟨c, hc, hlt⟩
      rcases List.mem_cons.mp hc with rfl | hc2
      · omega
      · exact (ih _ _).2 ⟨c, hc2, hlt⟩
    · rw [if_neg h]
      refine ⟨fun hall => ?_, fun _ => ⟨_, _, rfl⟩⟩
      have := hall b (List.mem_cons_self b bs)
      omega

theorem varintBytes_ne_0x80_0 (v : Nat) : varintBytes v ≠ [0x80, 0x00] := by
  rw [varintBytes]
  by_cases h : v < 128
  · simp [h]
  · simp only [h, dif_neg, not_false_eq_true]
    rw [varintBytes]
    by_cases h2 : v / 128 < 128
    · simp only [h2, dif_pos]
      intro hc
      simp only [List.cons.injEq, and_true] at hc
      omega
    · simp [h2]

theorem not_wellFormedStream_nil : ¬ wellFormedStream [] := by
  rintro ⟨_, b, hb, _⟩
  simp at hb

theorem wellFormedStream_single (b : Nat) : wellFormedStream [b] ↔ b < 0x80 := by
  simp [wellFormedStream]

theorem wellFormedStream_cons_cons (b c : Nat) (bs : List Nat) :
    wellFormedStream (b :: c :: bs) ↔
      (0x80 ≤ b ∧ b < 0x100) ∧ wellFormedStream (c :: bs) := by
  simp only [wellFormedStream, List.dropLast_cons₂, List.getLast?_cons_cons, List.mem_cons,
    forall_eq_or_imp]
  tauto

theorem groupSumUpTo_succ (bs : List Nat) (n : Nat) :
    groupSumUpTo bs (n + 1) = groupSumUpTo bs n + (bs.getD n 0 &&& 0x7f) * 2 ^ (7 * n) := by
  simp [groupSumUpTo, List.range_succ]

theorem groupSumUpTo_cons (b : Nat) (bs : List Nat) (n : Nat) :
    groupSumUpTo (b :: bs) (n + 1) = b % 128 + 128 * groupSumUpTo bs n := by
  induction n with
  | zero =>
    have hr : List.range 1 = [0] := rfl
    simp [groupSumUpTo, and_0x7f, hr]
  | succ n ih =>
    rw [groupSumUpTo_succ, ih, groupSumUpTo_succ]
    simp only [List.getD_cons_succ]
    rw [show 7 * (n + 1) = 7 + 7 * n by ring, pow_add]
    ring

theorem groupSum_cons (b : Nat) (bs : List Nat) :
    groupSum (b :: bs) = b % 128 + 128 * groupSum bs := by
  simp only [groupSum, List.length_cons, groupSumUpTo_cons]

theorem groupSumUpTo_lt (bs : List Nat) (n : Nat) : groupSumUpTo bs n < 2 ^ (7 * n) := by
  induction n with
  | zero => simp [groupSumUpTo]
  | succ n ih =>
    rw [groupSumUpTo_succ, and_0x7f]
    have h1 : bs.getD n 0 % 128 < 128 := Nat.mod_lt _ (by norm_num)
    have h2 : bs.getD n 0 % 128 * 2 ^ (7 * n) ≤ 127 * 2 ^ (7 * n) :=
      Nat.mul_le_mul_right _ (by omega)
    have h3 : (2 : Nat) ^ (7 * (n + 1)) = 128 * 2 ^ (7 * n) := by
      rw [show 7 * (n + 1) = 7 + 7 * n by ring, pow_add]; norm_num
    omega

theorem groupOrUpTo_eq (bs : List Nat) (n : Nat) : groupOrUpTo bs n = groupSumUpTo bs n := by
  induction n with
  | zero => simp [groupOrUpTo, groupSumUpTo]
  | succ n ih =>
    have hstep : groupOrUpTo bs (n + 1) =
        groupOrUpTo bs n ||| ((bs.getD n 0 &&& 0x7f) <<< (7 * n)) := by
      simp [groupOrUpTo, List.range_succ]
    rw [hstep, ih, groupSumUpTo_succ, Nat.shiftLeft_eq, Nat.lor_comm, Nat.add_comm,
      Nat.mul_comm]
    exact (Nat.mul_add_lt_is_or (groupSumUpTo_lt bs n) _).symm

theorem read_loop_wellFormed (w : Nat) (rest : InputBuffer) (bs : List Nat) :
    wellFormedStream bs → ∀ value shift, shift + 7 * (bs.length - 1) < 2 ^ 32 →
      shift + 7 * (bs.length - 1) < promoted w →
      GenericReadVariableUnsigned.loop w (bs ++ rest) value shift =
        .ok ((value + groupSum bs * 2 ^ shift) % 2 ^ w, rest) := by
  induction bs with
  | nil => intro h; exact absurd h not_wellFormedStream_nil
  | cons b bs ih =>
    intro hwf value shift hs hp
    cases bs with
    | nil =>
      have hb := (wellFormedStream_single b).mp hwf
      simp only [List.length_singleton, Nat.sub_self, Nat.mul_zero, Nat.add_zero] at hp
      rw [List.singleton_append, read_loop_cons_lt w b rest value shift hp,
        if_neg (by omega), groupSum_cons]
      simp [groupSum, groupSumUpTo]
    | cons c bs =>
      obtain ⟨⟨hb1, hb2⟩, hwf2⟩ := (wellFormedStream_cons_cons b c bs).mp hwf
      simp only [List.length_cons, Nat.add_sub_cancel] at hs hp ih
      have h3 : (shift + 7) % 2 ^ 32 = shift + 7 := Nat.mod_eq_of_lt (by omega)
      rw [List.cons_append, read_loop_cons_lt w b _ value shift (by omega), if_pos hb1, h3,
        ih hwf2 _ _ (by omega) (by omega), groupSum_cons b]
      congr 2
      rw [Nat.add_mod, Nat.mod_mod, ← Nat.add_mod]
      congr 1
      rw [show shift + 7 = 7 + shift by ring, pow_add]
      ring

theorem unitBytes_two (u : Nat) : unitBytes 2 u = [u % 256, u / 256 % 256] := by
  have hr : List.range 2 = [0, 1] := rfl
  simp [unitBytes, hr, Nat.shiftRight_eq_div_pow]

theorem readUnit_unitBytes_two (u : Nat) (hu : u < 65536) (tail : InputBuffer) :
    InputBuffer.ReadUnit 2 (unitBytes 2 u ++ tail) = .ok (u, tail) := by
  rw [unitBytes_two]
  simp only [InputBuffer.ReadUnit, InputBuffer.ReadBytes, List.cons_append, List.nil_append,
    List.length_cons]
  rw [if_pos (by omega)]
  simp only [List.take_succ_cons, List.take_zero, List.drop_succ_cons, List.drop_zero,
    unitOfBytes, List.foldr_cons, List.foldr_nil]
  congr 2
  omega

theorem take_set_succ (l : List Nat) : ∀ (i x : Nat), i < l.length →
    (l.set i x).take (i + 1) = l.take i ++ [x] := by
  induction l with
  | nil => intro i x h; simp at h
  | cons a l ih =>
    intro i x h
    cases i with
    | zero => simp
    | succ i =>
      simp only [List.length_cons, Nat.add_lt_add_iff_right] at h
      simp [ih i x h]

theorem write_string_loop_spec (usz : Nat) (data : List Nat) (length : Nat)
    (hlen : length ≤ data.length) : ∀ k i output, length - i = k → i ≤ length →
      detail.WriteStringData.loop usz data length i output =
        some (output ++
          ((data.take length).drop i).flatMap (fun c => unitBytes usz (c % 2 ^ (8 * usz)))) := by
  intro k
  induction k with
  | zero =>
    intro i output hk hi
    have : i = length := by omega
    subst this
    rw [detail.WriteStringData.loop]
    have hd : List.drop i (List.take i data) = [] := by
      apply List.drop_eq_nil_of_le; simp
    simp [hd]
  | succ k ih =>
    intro i output hk hi
    have hlt : i < length := by omega
    have hi2 : i < data.length := by omega
    have hi3 : i < (data.take length).length := by simp; omega
    rw [detail.WriteStringData.loop, dif_pos hlt, List.getElem?_eq_getElem hi2]
    simp only []
    rw [ih (i + 1) _ (by omega) (by omega), List.drop_eq_getElem_cons hi3]
    simp [OutputBuffer.WriteUnit, List.getElem_take]

theorem read_string_loop_spec (esz length : Nat) (rest : InputBuffer) :
    ∀ (units : List Nat) (i : Nat) (data : List Nat), i + units.length = length →
      data.length = length → (∀ u ∈ units, u < 65536) →
      detail.ReadStringData.loop esz 2 length i (units.flatMap (unitBytes 2) ++ rest) data =
        .ok (data.take i ++ units.map (fun u => u % 2 ^ (8 * esz)), rest) := by
  intro units
  induction units with
  | nil =>
    intro i data hi hd _
    simp only [List.length_nil, Nat.add_zero] at hi
    subst hi
    rw [detail.ReadStringData.loop, dif_neg (by omega)]
    simp [← hd]
  | cons u us ih =>
    intro i data hi hd hu
    simp only [List.length_cons] at hi
    have hlt : i < length := by omega
    rw [detail.ReadStringData.loop, dif_pos hlt]
    have hr := readUnit_unitBytes_two u (hu u (List.mem_cons_self u us))
      (us.flatMap (unitBytes 2) ++ rest)
    simp only [List.flatMap_cons, List.append_assoc]
    rw [hr]
    simp only []
    rw [ih (i + 1) _ (by omega) (by simpa using hd)
      (fun v hv => hu v (List.mem_cons_of_mem u hv)), take_set_succ data i _ (by omega)]
    simp

theorem wide_write_read (esz : Nat) (hesz : 2 < esz) (s : List Nat) (length : Nat)
    (hlen : length ≤ s.length) (output : OutputBuffer) (rest : InputBuffer) (value : List Nat) :
    detail.WriteStringData esz 2 output s length =
        some (output ++ ((s.take length).map (fun c => c % 2 ^ 16)).flatMap (unitBytes 2)) ∧
      detail.ReadStringData esz 2
          (((s.take length).map (fun c => c % 2 ^ 16)).flatMap (unitBytes 2) ++ rest)
          value length =
        some (.ok ((s.take length).map (fun c => c % 2 ^ 16), rest)) := by
  have hne : ¬ esz = 2 := by omega
  constructor
  · simp only [detail.WriteStringData, if_neg hne, if_pos hesz]
    rw [write_string_loop_spec 2 s length hlen (length - 0) 0 output rfl (Nat.zero_le _),
      List.flatMap_map]
    rfl
  · simp only [detail.ReadStringData, if_neg hne, if_pos hesz]
    rw [read_string_loop_spec esz length rest _ 0 _ (by simp; omega)
      (resize_string_length value length)
      (by
        intro u hu
        obtain ⟨c, _, rfl⟩ := List.mem_map.mp hu
        exact Nat.mod_lt _ (by norm_num))]
    have hpow : (2 : Nat) ^ 16 ≤ 2 ^ (8 * esz) := Nat.pow_le_pow_right (by norm_num) (by omega)
    have hmod : ∀ c : Nat, c % 2 ^ 16 % 2 ^ (8 * esz) = c % 2 ^ 16 := fun c =>
      Nat.mod_eq_of_lt (lt_of_lt_of_le (Nat.mod_lt _ (by norm_num)) hpow)
    rw [List.take_zero, List.nil_append, List.map_map]
    congr 3
    apply List.map_congr_left
    intro c _
    exact hmod c

theorem map_mod_eq_self_iff (l : List Nat) (m : Nat) :
    l.map (fun c => c % m) = l ↔ ∀ c ∈ l, c % m = c := by
  induction l with
  | nil => simp
  | cons a l ih => simp [ih]

/-! ## Properties of the hex digits -/

/-- C13: `HexDigit` is a bijection between 0..15 and the characters '0'-'9',
'a'-'f': every `n` in 0..15 maps to one of these characters and back to `n`,
every such character maps to a value in 0..15 and back to itself, and the
char-to-int direction gives each of 'A'-'F' the value of the corresponding
lowercase letter. -/
theorem hexDigit_bijection :
    (∀ n : Int, 0 ≤ n → n ≤ 15 →
        ((chr '0' ≤ detail.HexDigit_int n ∧ detail.HexDigit_int n ≤ chr '9') ∨
          (chr 'a' ≤ detail.HexDigit_int n ∧ detail.HexDigit_int n ≤ chr 'f')) ∧
        detail.HexDigit_char (detail.HexDigit_int n) = n) ∧
      (∀ c : Int, (chr '0' ≤ c ∧ c ≤ chr '9') ∨ (chr 'a' ≤ c ∧ c ≤ chr 'f') →
        0 ≤ detail.HexDigit_char c ∧ detail.HexDigit_char c ≤ 15 ∧
        detail.HexDigit_int (detail.HexDigit_char c) = c) ∧
      (∀ c : Int, chr 'A' ≤ c → c ≤ chr 'F' →
        detail.HexDigit_char c = detail.HexDigit_char (c - chr 'A' + chr 'a')) := by
  have h0 : chr '0' = 48 := rfl
  have h9 : chr '9' = 57 := rfl
  have ha : chr 'a' = 97 := rfl
  have hf : chr 'f' = 102 := rfl
  have hA : chr 'A' = 65 := rfl
  have hF : chr 'F' = 70 := rfl
  refine ⟨?_, ?_, ?_⟩
  · intro n hn0 hn15
    interval_cases n <;> decide
  · intro c hc
    rw [h0, h9, ha, hf] at hc
    rcases hc with ⟨h1, h2⟩ | ⟨h1, h2⟩ <;> interval_cases c <;> decide
  · intro c h1 h2
    rw [hA] at h1
    rw [hF] at h2
    interval_cases c <;> decide

/-! ## Dispatch, failure and framing of the varint codec -/

/-- Counterexample to C15 as stated: a buffer type that declares a native
`WriteVariableUnsigned` writing the value as one raw byte. The classifier
selects the native method, and the bytes produced for 300 are not the bytes
the generic algorithm produces. -/
theorem varint_dispatch_native_bytes_differ :
    implements_varint_write (some (fun (output : OutputBuffer) v => output.Write (v % 256))) =
        true ∧
      WriteVariableUnsigned (some (fun (output : OutputBuffer) v => output.Write (v % 256)))
          [] 300 = [0x2C] ∧
      GenericWriteVariableUnsigned none [] 300 = [0xAC, 0x02] ∧
      WriteVariableUnsigned (some (fun (output : OutputBuffer) v => output.Write (v % 256)))
          [] 300 ≠ GenericWriteVariableUnsigned none [] 300 := by
  have h1 : WriteVariableUnsigned
      (some (fun (output : OutputBuffer) v => output.Write (v % 256))) [] 300 = [0x2C] := by
    rw [WriteVariableUnsigned]
    simp [OutputBuffer.Write]
  have h2 : GenericWriteVariableUnsigned none [] 300 = [0xAC, 0x02] := by
    rw [write_unfold, if_neg (by norm_num), write_unfold]
    simp
  refine ⟨rfl, h1, h2, ?_⟩
  rw [h1, h2]
  decide

/-- C15, amended: for a buffer type that declares native varint methods the
free functions delegate to those methods, whatever they do, and the generic
algorithm is not run; so the bytes produced are those of the buffer's own
method, and they equal the bytes of the generic algorithm exactly when the
buffer's own method produces them (likewise for the value read); for a buffer
type without native methods the free functions are exactly the generic
algorithm. -/
theorem varint_dispatch (w : Nat) :
    (∀ (method : OutputBuffer → Nat → OutputBuffer) output v,
        implements_varint_write (some method) = true ∧
        WriteVariableUnsigned (some method) output v = method output v ∧
        (WriteVariableUnsigned (some method) output v =
            GenericWriteVariableUnsigned none output v ↔
          method output v = GenericWriteVariableUnsigned none output v)) ∧
      (∀ (method : InputBuffer → Nat → Except BufferError (Nat × InputBuffer)) input value,
        implements_varint_read (some method) = true ∧
        ReadVariableUnsigned (some method) w input value = method input value ∧
        (ReadVariableUnsigned (some method) w input value =
            GenericReadVariableUnsigned w input value ↔
          method input value = GenericReadVariableUnsigned w input value)) ∧
      (∀ output v,
        implements_varint_write none = false ∧
        WriteVariableUnsigned none output v = GenericWriteVariableUnsigned none output v) ∧
      (∀ input value,
        implements_varint_read none = false ∧
        ReadVariableUnsigned none w input value = GenericReadVariableUnsigned w input value) := by
  refine ⟨?_, ?_, ?_, ?_⟩
  · intro method output v
    have h : WriteVariableUnsigned (some method) output v = method output v := by
      rw [WriteVariableUnsigned]
    exact ⟨rfl, h, by rw [h]⟩
  · intro method input value
    exact ⟨rfl, rfl, Iff.rfl⟩
  · intro output v
    exact ⟨rfl, by rw [WriteVariableUnsigned]⟩
  · intro input value
    exact ⟨rfl, rfl⟩

/-- C16: when the read primitive of the buffer fails before a byte with the
high bit clear has been read (the input is empty, or every remaining byte has
its high bit set), the generic reader fails with the very failure of the
primitive and returns no value; when a byte with the high bit clear is present
the generic reader returns a value, so it fails in no other case. -/
theorem varint_read_failure (w : Nat) (input : InputBuffer) (value : Nat) :
    ((∀ b ∈ input, 0x80 ≤ b) →
        ∃ e, InputBuffer.Read [] = .error e ∧
          GenericReadVariableUnsigned w input value = .error e) ∧
      ((∃ b ∈ input, b < 0x80) →
        ∃ v rest, GenericReadVariableUnsigned w input value = .ok (v, rest)) ∧
      ((∃ e, GenericReadVariableUnsigned w input value = .error e) ↔
        ∀ b ∈ input, 0x80 ≤ b) := by
  have h := read_loop_error_iff w input 0 0
  have h1 : (∀ b ∈ input, 0x80 ≤ b) →
      GenericReadVariableUnsigned w input value = .error .eof := h.1
  have h2 : (∃ b ∈ input, b < 0x80) →
      ∃ v rest, GenericReadVariableUnsigned w input value = .ok (v, rest) := h.2
  refine ⟨fun hall => ⟨.eof, rfl, h1 hall⟩, h2, ?_, fun hall => ⟨.eof, h1 hall⟩⟩
  rintro ⟨e, he⟩
  by_contra hne
  push_neg at hne
  obtain ⟨b, hb, hlt⟩ := hne
  obtain ⟨v, rest, hok⟩ := h2 ⟨b, hb, hlt⟩
  rw [hok] at he
  cases he

/-- C18: the varint encoding is self-delimiting: for every unsigned `v` of
width `w` and every byte sequence `rest`, the generic reader applied to the
bytes written for `v` followed by `rest` returns `v` and leaves exactly `rest`;
so two values written back to back are read back in order. -/
theorem varint_self_delimiting (w : Nat) (hw : w ∈ [8, 16, 32, 64]) (v v2 : Nat)
    (hv : v < 2 ^ w) (hv2 : v2 < 2 ^ w) (output : OutputBuffer) (rest : InputBuffer)
    (value value2 : Nat) :
    (∃ bytes, GenericWriteVariableUnsigned none output v = output ++ bytes ∧
        GenericReadVariableUnsigned w (bytes ++ rest) value = .ok (v, rest)) ∧
      ∃ mid,
        GenericReadVariableUnsigned w
            (GenericWriteVariableUnsigned none (GenericWriteVariableUnsigned none [] v) v2 ++ rest)
            value = .ok (v, mid) ∧
          GenericReadVariableUnsigned w mid value2 = .ok (v2, rest) := by
  have hread : ∀ (u : Nat) (tail : InputBuffer) (val : Nat), u < 2 ^ w →
      GenericReadVariableUnsigned w (varintBytes u ++ tail) val = .ok (u, tail) := by
    intro u tail val hu
    obtain ⟨hlen, hbud⟩ := varintBytes_budget w hw u hu
    have h := read_loop_varintBytes w tail u 0 0 (by omega) (by omega)
    simp only [Nat.zero_add, pow_zero, Nat.mul_one, Nat.mod_eq_of_lt hu] at h
    simpa [GenericReadVariableUnsigned] using h
  refine ⟨⟨varintBytes v, write_eq_append v output, hread v rest value hv⟩,
    varintBytes v2 ++ rest, ?_, hread v2 rest value2 hv2⟩
  rw [write_eq_append v2, write_eq_append v, List.nil_append, List.append_assoc]
  exact hread v _ value hv

/-- Witness of C18: the 16-bit values 300 and 5 written back to back. -/
theorem varint_self_delimiting_witness :
    (∃ bytes, GenericWriteVariableUnsigned none [1] 300 = [1] ++ bytes ∧
        GenericReadVariableUnsigned 16 (bytes ++ [9]) 0 = .ok (300, [9])) ∧
      ∃ mid,
        GenericReadVariableUnsigned 16
            (GenericWriteVariableUnsigned none (GenericWriteVariableUnsigned none [] 300) 5 ++ [9])
            0 = .ok (300, mid) ∧
          GenericReadVariableUnsigned 16 mid 0 = .ok (5, [9]) :=
  varint_self_delimiting 16 (by decide) 300 5 (by norm_num) (by norm_num) [1] [9] 0 0

/-- C19: the generic reader accepts a non-canonical encoding: for each width
the two bytes 0x80 0x00 are within the `ceil(w/7)` byte budget, the writer
never produces them, and the read succeeds with the value 0, whose own encoding
is the single byte 0x00; so two different streams decode to the same value and
writing the value read does not give the stream back. -/
theorem varint_read_non_canonical (w : Nat) (hw : w ∈ [8, 16, 32, 64]) (value : Nat) :
    [0x80, 0x00].length ≤ (w + 6) / 7 ∧
      (∀ v output, GenericWriteVariableUnsigned none output v ≠ output ++ [0x80, 0x00]) ∧
      GenericReadVariableUnsigned w [0x80, 0x00] value = .ok (0, []) ∧
      GenericReadVariableUnsigned w [0x00] value = .ok (0, []) ∧
      GenericWriteVariableUnsigned none [] 0 = [0x00] ∧
      GenericWriteVariableUnsigned none [] 0 ≠ [0x80, 0x00] := by
  have hw2 := width_pos w hw
  have hwr : GenericWriteVariableUnsigned none [] 0 = [0x00] := by
    rw [write_unfold]; simp
  refine ⟨?_, ?_, ?_, ?_, hwr, ?_⟩
  · simp only [List.mem_cons, List.mem_singleton, List.not_mem_nil, or_false] at hw
    rcases hw with rfl | rfl | rfl | rfl <;> decide
  · intro v output h
    rw [write_eq_append] at h
    exact varintBytes_ne_0x80_0 v (List.append_cancel_left h)
  · simp [GenericReadVariableUnsigned, read_loop_cons, shl_zero_left]
  · simp [GenericReadVariableUnsigned, read_loop_cons, shl_zero_left]
  · rw [hwr]; decide

/-- Witness of C19: the 8-bit width, whose byte budget is exactly two. -/
theorem varint_read_non_canonical_witness :
    [0x80, 0x00].length ≤ (8 + 6) / 7 ∧
      (∀ v output, GenericWriteVariableUnsigned none output v ≠ output ++ [0x80, 0x00]) ∧
      GenericReadVariableUnsigned 8 [0x80, 0x00] 5 = .ok (0, []) ∧
      GenericReadVariableUnsigned 8 [0x00] 5 = .ok (0, []) ∧
      GenericWriteVariableUnsigned none [] 0 = [0x00] ∧
      GenericWriteVariableUnsigned none [] 0 ≠ [0x80, 0x00] :=
  varint_read_non_canonical 8 (by decide) 5

/-- C20: the result of the generic reader does not depend on the prior content
of the output variable: for every input and every two initial values the two
runs return the same value and leave the same buffer. The loop itself does
depend on its accumulator, so this holds because the function assigns zero to
the variable before the loop. -/
theorem varint_read_ignores_prior_value (w : Nat) (input : InputBuffer) (value1 value2 : Nat) :
    GenericReadVariableUnsigned w input value1 = GenericReadVariableUnsigned w input value2 ∧
      GenericReadVariableUnsigned w input value1 =
        GenericReadVariableUnsigned.loop w input 0 0 ∧
      GenericReadVariableUnsigned.loop 8 [0x01] 0 0 ≠
        GenericReadVariableUnsigned.loop 8 [0x01] 2 0 := by
  refine ⟨rfl, rfl, ?_⟩
  rw [read_loop_cons, read_loop_cons]
  simp [shl, promoted]

/-! ## Value computed by the generic reader -/

/-- C14: for every well-formed stream `b_0 .. b_(n-1)` (all bytes but the last
have the high bit set, the last has it clear) with `n <= ceil(w/7)`, the
generic reader into a value of width `w` returns the sum over `i` of
`(b_i & 0x7f) * 2^(7*i)` reduced modulo `2^w`, and that sum is the bitwise OR
of the groups `(b_i & 0x7f) << 7*i`. -/
theorem varint_read_value (w : Nat) (hw : w ∈ [8, 16, 32, 64]) (bs : List Nat)
    (hwf : wellFormedStream bs) (hlen : bs.length ≤ (w + 6) / 7) (rest : InputBuffer)
    (value : Nat) :
    GenericReadVariableUnsigned w (bs ++ rest) value = .ok (groupSum bs % 2 ^ w, rest) ∧
      groupSum bs = groupOr bs ∧
      groupSum bs % 2 ^ w = groupOr bs % 2 ^ w := by
  have hw2 := width_pos w hw
  have hor : groupSum bs = groupOr bs := (groupOrUpTo_eq bs bs.length).symm
  obtain ⟨hl, hbud⟩ := budget_shift_lt w hw bs.length hlen
  have h := read_loop_wellFormed w rest bs hwf 0 0 (by omega) (by omega)
  simp only [Nat.zero_add, pow_zero, Nat.mul_one] at h
  exact ⟨h, hor, by rw [hor]⟩

/-- Witness of C14: the two-byte stream 0xAC 0x02 read into a 16-bit value. -/
theorem varint_read_value_witness :
    GenericReadVariableUnsigned 16 ([0xAC, 0x02] ++ [7]) 0 =
        .ok (groupSum [0xAC, 0x02] % 2 ^ 16, [7]) ∧
      groupSum [0xAC, 0x02] = groupOr [0xAC, 0x02] ∧
      groupSum [0xAC, 0x02] % 2 ^ 16 = groupOr [0xAC, 0x02] % 2 ^ 16 :=
  varint_read_value 16 (by decide) [0xAC, 0x02] ⟨by decide, 0x02, rfl, by decide⟩
    (by decide) [7] 0

/-- Counterexample to C11 as stated: the wide string "ab" written with
`WriteStringData` does not produce the two bytes 0x61, 0x62, neither with a
32-bit `wchar_t` (element-wise loop) nor with a 16-bit `wchar_t` (bulk copy):
the code unit of a wide string is `uint16_t`. -/
theorem wide_ab_write_not_two_bytes :
    detail.WriteStringData 4 (string_char_int_type .wstring) [] [0x61, 0x62] 2 ≠
        some [0x61, 0x62] ∧
      detail.WriteStringData 2 (string_char_int_type .wstring) [] [0x61, 0x62] 2 ≠
        some [0x61, 0x62] := by
  constructor
  · rw [show string_char_int_type .wstring = 2 from rfl,
      (wide_write_read 4 (by norm_num) [0x61, 0x62] 2 (by decide) [] [] []).1]
    decide
  · simp [detail.WriteStringData, string_char_int_type, OutputBuffer.WriteBytes, string_data,
      unitBytes_two]

/-- C11, amended: the wide string "ab" (code units 0x0061, 0x0062) written with
`WriteStringData` is emitted as two 16-bit code units, the four bytes
0x61 0x00 0x62 0x00, both with a 32-bit `wchar_t` (element-wise loop, the upper
16 bits of each character dropped) and with a 16-bit `wchar_t` (bulk copy); and
`ReadStringData` reads these bytes back as the wide string 0x0061, 0x0062. -/
theorem wide_ab_roundtrip :
    detail.WriteStringData 4 (string_char_int_type .wstring) [] [0x61, 0x62] 2 =
        some [0x61, 0x00, 0x62, 0x00] ∧
      detail.ReadStringData 4 (string_char_int_type .wstring) [0x61, 0x00, 0x62, 0x00] [] 2 =
        some (.ok ([0x61, 0x62], [])) ∧
      detail.WriteStringData 2 (string_char_int_type .wstring) [] [0x61, 0x62] 2 =
        some [0x61, 0x00, 0x62, 0x00] ∧
      detail.ReadStringData 2 (string_char_int_type .wstring) [0x61, 0x00, 0x62, 0x00] [] 2 =
        some (.ok ([0x61, 0x62], [])) := by
  have h := wide_write_read 4 (by norm_num) [0x61, 0x62] 2 (by decide) [] [] []
  have hb : (([0x61, 0x62] : List Nat).take 2).map (fun c => c % 2 ^ 16) = [0x61, 0x62] := by
    decide
  have hf : ([0x61, 0x62] : List Nat).flatMap (unitBytes 2) = [0x61, 0x00, 0x62, 0x00] := by
    decide
  rw [hb, hf] at h
  refine ⟨by simpa [string_char_int_type] using h.1, by simpa [string_char_int_type] using h.2,
    ?_, ?_⟩
  · simp [detail.WriteStringData, string_char_int_type, OutputBuffer.WriteBytes, string_data,
      unitBytes_two]
  · have hr : List.range 2 = [0, 1] := rfl
    simp [detail.ReadStringData, string_char_int_type, InputBuffer.ReadBytes,
      resize_string_length, string_of_data, unitOfBytes, hr]

/-- C12: on the element-wise path of a wide string whose characters are wider
than the 16-bit code unit, for every string `s` and every `length <= |s|`,
`WriteStringData` emits exactly `length` units without error, the `i`-th being
`s[i] mod 2^16`; `ReadStringData` reads exactly these `length` units and
widens each without change; so read-after-write yields `s[i] mod 2^16` at
every position, and gives the characters back exactly when every character
fits in 16 bits. -/
theorem wide_string_narrowing (esz : Nat) (hesz : string_char_int_type .wstring < esz)
    (s : List Nat) (length : Nat) (hlen : length ≤ s.length) (output : OutputBuffer)
    (rest : InputBuffer) (value : List Nat) :
    ∃ units : List Nat,
      units.length = length ∧
      (∀ i, i < length → units.getD i 0 = s.getD i 0 % 2 ^ 16) ∧
      detail.WriteStringData esz (string_char_int_type .wstring) output s length =
        some (output ++ units.flatMap (unitBytes (string_char_int_type .wstring))) ∧
      detail.ReadStringData esz (string_char_int_type .wstring)
          (units.flatMap (unitBytes (string_char_int_type .wstring)) ++ rest) value length =
        some (.ok (units, rest)) ∧
      (units = s.take length ↔ ∀ c ∈ s.take length, c < 2 ^ 16) ∧
      (length = s.length → (units = s ↔ ∀ c ∈ s, c < 2 ^ 16)) := by
  have hk : string_char_int_type .wstring = 2 := rfl
  rw [hk] at hesz ⊢
  obtain ⟨hwr, hrd⟩ := wide_write_read esz hesz s length hlen output rest value
  have hiff : (s.take length).map (fun c => c % 2 ^ 16) = s.take length ↔
      ∀ c ∈ s.take length, c < 2 ^ 16 := by
    rw [map_mod_eq_self_iff]
    constructor
    · intro h c hc
      have := h c hc
      have h2 : c % 2 ^ 16 < 2 ^ 16 := Nat.mod_lt _ (by norm_num)
      omega
    · intro h c hc
      exact Nat.mod_eq_of_lt (h c hc)
  refine ⟨(s.take length).map (fun c => c % 2 ^ 16), ?_, ?_, hwr, hrd, hiff, ?_⟩
  · simp; omega
  · intro i hi
    have hi2 : i < s.length := by omega
    simp [List.getD_eq_getElem?_getD, List.getElem?_take, hi, List.getElem?_eq_getElem hi2]
  · intro hl
    subst hl
    simpa using hiff

/-- Witness of C12: a three-character wide string with 32-bit characters, one
of which does not fit in 16 bits, written with length 2. -/
theorem wide_string_narrowing_witness :
    ∃ units : List Nat,
      units.length = 2 ∧
      (∀ i, i < 2 → units.getD i 0 = [0x61, 0x10062, 0x63].getD i 0 % 2 ^ 16) ∧
      detail.WriteStringData 4 (string_char_int_type .wstring) [] [0x61, 0x10062, 0x63] 2 =
        some ([] ++ units.flatMap (unitBytes (string_char_int_type .wstring))) ∧
      detail.ReadStringData 4 (string_char_int_type .wstring)
          (units.flatMap (unitBytes (string_char_int_type .wstring)) ++ [9]) [] 2 =
        some (.ok (units, [9])) ∧
      (units = [0x61, 0x10062, 0x63].take 2 ↔ ∀ c ∈ [0x61, 0x10062, 0x63].take 2, c < 2 ^ 16) ∧
      (2 = [0x61, 0x10062, 0x63].length →
        (units = [0x61, 0x10062, 0x63] ↔ ∀ c ∈ [0x61, 0x10062, 0x63], c < 2 ^ 16)) :=
  wide_string_narrowing 4 (by decide) [0x61, 0x10062, 0x63] 2 (by decide) [] [9] []

end bond
